import Mathlib

/-!
Verification of the SSE frame decoder and the chat store of
`anthropic-use-chat-native`.

Part 1 embeds `src/lib/stream-parser.ts` (`parseSSEStream`).  JS strings are
modelled as lists of characters so that `split('\n')` and buffer
concatenation can be reasoned about by structural induction; byte-to-text
decoding (`TextDecoder` with `stream: true`) is transparent to chunk
boundaries and is therefore abstracted away by working with text chunks.
The decoder is modelled up to the point where a payload is handed to
`JSON.parse`: its output is the sequence of frame payload strings.
-/

namespace SSE

/-- A JS string, as a list of characters. -/
abbrev Str := List Char

/-- Coerce a Lean string literal to the character-list model. -/
def chars (s : String) : Str := s.toList

/-- Prepend a character to the first piece of a split result
(helper for `splitNL`). -/
def consHead (c : Char) : List Str → List Str
  | [] => [[c]]
  | l :: ls => (c :: l) :: ls

/-- JS `buffer.split('\n')`: split a string at every newline.  The result is
never empty; splitting `""` gives `[""]`, and a trailing newline yields a
trailing `""` piece, exactly as in JS. -/
def splitNL : Str → List Str
  | [] => [[]]
  | c :: cs => if c = '\n' then [] :: splitNL cs else consHead c (splitNL cs)

/-- JS `trim()`: strip leading and trailing whitespace. -/
def trimChars (s : Str) : Str :=
  ((s.dropWhile Char.isWhitespace).reverse.dropWhile Char.isWhitespace).reverse

/-- The sentinel payload `[DONE]`. -/
def doneSentinel : Str := chars "[DONE]"

/-- The body of the per-line loop of `parseSSEStream`
(src/lib/stream-parser.ts lines 21-34): a line starting with the marker
`data: ` contributes its trimmed payload, unless the payload is the
sentinel `[DONE]`, which the loop `continue`s over; every other line
contributes nothing.  `none` means no payload is handed to the event
parser for this line. -/
def lineData : Str → Option Str
  | 'd' :: 'a' :: 't' :: 'a' :: ':' :: ' ' :: rest =>
      let data := trimChars rest
      if data = doneSentinel then none else some data
  | _ => none

/-- The chunk loop of `parseSSEStream` (src/lib/stream-parser.ts lines
11-36): append the chunk to the buffer, split on newlines, keep the last
(incomplete) piece as the new buffer, and process every complete line.
When the reader reports `done` (no chunks left) the loop exits and the
remaining buffer is dropped. -/
def feedChunks (buffer : Str) : List Str → List Str
  | [] => []
  | chunk :: rest =>
      let lines := splitNL (buffer ++ chunk)
      (lines.dropLast.filterMap lineData) ++ feedChunks (lines.getLastD []) rest

/-- `parseSSEStream` on a whole stream of chunks, starting from the empty
buffer.  The result is the sequence of frame payloads handed to the event
parser. -/
def parseSSEStream (chunks : List Str) : List Str := feedChunks [] chunks

/-- Recombination of two split results (helper for `splitNL_append`):
the last piece of the first result merges with the first piece of the
second. -/
def glue (xs ys : List Str) : List Str :=
  match ys with
  | [] => xs
  | y :: ys' => xs.dropLast ++ (xs.getLastD [] ++ y) :: ys'

end SSE

/-!
Part 2 embeds the Zustand store of `src/store/chat.ts`.  `Date.now()` is
abstracted as a single `now : Nat` parameter per action (the exact clock
values never matter to the properties below).  The `AbortController` on a
thread is modelled by a Boolean presence flag; the outcome of the
asynchronous fetch/stream of one submission is modelled by a
`RequestResult`: the list of decoded stream events that were processed
followed by how the `try` block ended (normal completion of the loop, an
`AbortError`, or any other thrown error).  JS `Partial<Message>` merges
are modelled by applying the corresponding field updates.
-/

namespace Chat

structure Usage where
  input_tokens : Nat
  output_tokens : Nat
deriving DecidableEq

inductive Role
  | user
  | assistant
deriving DecidableEq

/-- A content block as stored in `contentBlocks` / `Message.content`.
Tool-use, server-tool-use and web-search-result blocks are stored verbatim
by the code, so their payloads are opaque strings here; citations are
likewise opaque. -/
inductive ContentBlock
  | text (text : String) (citations : List String)
  | thinking (thinking : String)
  | tool_use (payload : String)
  | server_tool_use (payload : String)
  | web_search_tool_result (payload : String)
deriving DecidableEq

/-- A `Message` (Anthropic SDK type as used by the store).  The constant
discriminator field `type: 'message'` is omitted. -/
structure Message where
  id : String
  role : Role
  content : List ContentBlock
  model : String
  stop_reason : Option String
  stop_sequence : Option String
  usage : Usage
deriving DecidableEq

structure Attachment where
  id : String
  name : String
  type : String
  size : Nat
  content : Option String
deriving DecidableEq

inductive ArtifactType
  | code
  | document
  | image
deriving DecidableEq

structure Artifact where
  id : String
  type : ArtifactType
  title : String
  content : String
  language : Option String
  createdAt : Nat
deriving DecidableEq

/-- A thread; `hasAbortController` models presence of the optional
`abortController` field. -/
structure Thread where
  id : String
  title : String
  createdAt : Nat
  updatedAt : Nat
  messages : List Message
  hasAbortController : Bool
deriving DecidableEq

inductive Modal
  | settings
  | newThread
deriving DecidableEq

inductive View
  | chat
  | artifacts
  | documents
deriving DecidableEq

structure ChatStore where
  sidebarOpen : Bool
  activeModal : Option Modal
  selectedView : View
  threads : List Thread
  selectedThreadId : Option String
  messages : List Message
  messageInput : String
  attachments : List Attachment
  artifacts : List Artifact
  selectedArtifactId : Option String
deriving DecidableEq

/-- The `content_block` payload of a `content_block_start` event: the block
type together with the seed fields the code reads (`citations` for text
blocks; opaque payloads otherwise).  `other` covers block types with no
branch in the code. -/
inductive StartBlock
  | text (citations : Option (List String))
  | thinking
  | tool_use (payload : String)
  | server_tool_use (payload : String)
  | web_search_tool_result (payload : String)
  | other
deriving DecidableEq

/-- The `delta` payload of a `content_block_delta` event. -/
inductive DeltaEvent
  | text_delta (text : String)
  | citations_delta (citation : Option String)
  | thinking_delta (thinking : String)
  | input_json_delta (pjson : String)
  | other
deriving DecidableEq

/-- A decoded stream event, as discriminated by the `event.type` branches of
`submitMessage`.  `message_start` carries only the `event.message.id` the
code reads; `error` is the event the API route emits on upstream failure
(src/unnamed/part_003 lines 105-112) — `submitMessage` has no branch for
it. -/
inductive StreamEvent
  | message_start (id : String)
  | content_block_start (index : Option Nat) (content_block : StartBlock)
  | content_block_delta (index : Option Nat) (delta : DeltaEvent)
  | content_block_stop (index : Option Nat)
  | message_delta (stop_reason : Option String) (usage : Option Usage)
  | message_stop
  | error (message : String)
deriving DecidableEq

/-- How the `try` block of one submission ended. -/
inductive StreamTermination
  | normal
  | aborted
  | failed (message : String)
deriving DecidableEq

/-- The observable outcome of one submission's fetch/stream: the decoded
events processed by the loop, then how the `try` block ended. -/
structure RequestResult where
  events : List StreamEvent
  termination : StreamTermination
deriving DecidableEq

/-- JS `String.prototype.trim()`: strip leading and trailing whitespace
(defined over the character list so that it evaluates by kernel
reduction). -/
def jsTrim (s : String) : String :=
  ⟨((s.data.dropWhile Char.isWhitespace).reverse.dropWhile Char.isWhitespace).reverse⟩

/-- JS `x || d` on an optional non-negative integer: `undefined` and `0`
are both falsy (`event.index || contentBlocks.length`,
`event.index || 0`). -/
def jsOrIndex (x : Option Nat) (d : Nat) : Nat :=
  match x with
  | some n => if n = 0 then d else n
  | none => d

/-- JS truthiness of an optional string (`undefined`, `null` and `""` are
falsy). -/
def jsTruthy (x : Option String) : Bool :=
  match x with
  | some s => s != ""
  | none => false

/-- JS sparse-array read `contentBlocks[i]` (`undefined` for holes and
out-of-range reads). -/
def getIdx (l : List (Option ContentBlock)) (i : Nat) : Option ContentBlock :=
  l.getD i none

/-- JS sparse-array write `contentBlocks[i] = v`: extends the array with
holes up to `i` if needed. -/
def setIdx : List (Option ContentBlock) → Nat → ContentBlock → List (Option ContentBlock)
  | [], 0, v => [some v]
  | [], n + 1, v => none :: setIdx [] n v
  | _ :: xs, 0, v => some v :: xs
  | x :: xs, n + 1, v => x :: setIdx xs n v

/-- `content_block_start` handling (src/store/chat.ts lines 365-379):
compute `blockIndex` with JS `||`, then initialize the block; block types
with no branch leave the array unchanged. -/
def applyBlockStart (blocks : List (Option ContentBlock)) (index : Option Nat)
    (cb : StartBlock) : List (Option ContentBlock) :=
  let blockIndex := jsOrIndex index blocks.length
  match cb with
  | .tool_use p => setIdx blocks blockIndex (.tool_use p)
  | .server_tool_use p => setIdx blocks blockIndex (.server_tool_use p)
  | .web_search_tool_result p => setIdx blocks blockIndex (.web_search_tool_result p)
  | .thinking => setIdx blocks blockIndex (.thinking "")
  | .text citations => setIdx blocks blockIndex (.text "" (citations.getD []))
  | .other => blocks

/-- `content_block_delta` handling (src/store/chat.ts lines 385-419):
compute `deltaIndex` with JS `||`, then append to the addressed block when
it exists and has a compatible type; otherwise the array is unchanged. -/
def applyBlockDelta (blocks : List (Option ContentBlock)) (index : Option Nat)
    (d : DeltaEvent) : List (Option ContentBlock) :=
  let deltaIndex := jsOrIndex index 0
  match d with
  | .text_delta t =>
      match getIdx blocks deltaIndex with
      | some (.text s c) => setIdx blocks deltaIndex (.text (s ++ t) c)
      | _ => blocks
  | .citations_delta (some cit) =>
      match getIdx blocks deltaIndex with
      | some (.text s c) => setIdx blocks deltaIndex (.text s (c ++ [cit]))
      | _ => blocks
  | .citations_delta none => blocks
  | .thinking_delta t =>
      match getIdx blocks deltaIndex with
      | some (.thinking s) => setIdx blocks deltaIndex (.thinking (s ++ t))
      | _ => blocks
  | .input_json_delta _ => blocks
  | .other => blocks

/-- `createThread` (src/store/chat.ts lines 107-122): append a fresh thread,
select it and clear the message list; returns the new thread id. -/
def createThread (s : ChatStore) (title : Option String) (now : Nat) : ChatStore × String :=
  let id := "thread_" ++ toString now
  ({ s with
      threads := s.threads ++ [{ id := id, title := title.getD "New Chat", createdAt := now,
                                 updatedAt := now, messages := [], hasAbortController := false }],
      selectedThreadId := some id,
      messages := [] }, id)

/-- `addMessage` (src/store/chat.ts lines 148-169): append to the message
list and overwrite the selected thread's copy with the new list. -/
def addMessage (s : ChatStore) (now : Nat) (m : Message) : ChatStore :=
  let newMessages := s.messages ++ [m]
  { s with
    messages := newMessages,
    threads := s.threads.map fun t =>
      if some t.id = s.selectedThreadId then
        { t with messages := newMessages, updatedAt := now }
      else t }

/-- `updateMessage` (src/store/chat.ts lines 171-194): apply a partial
update to the message with the given id, and overwrite the selected
thread's copy with the new list. -/
def updateMessage (s : ChatStore) (now : Nat) (messageId : String)
    (upd : Message → Message) : ChatStore :=
  let newMessages := s.messages.map fun m => if m.id = messageId then upd m else m
  { s with
    messages := newMessages,
    threads := s.threads.map fun t =>
      if some t.id = s.selectedThreadId then
        { t with messages := newMessages, updatedAt := now }
      else t }

/-- The inline `set` in the `message_start` branch (src/store/chat.ts lines
346-360): rename a message id in the message list and in the selected
thread's own copy (without touching `updatedAt`). -/
def renameMessageId (s : ChatStore) (oldId newId : String) : ChatStore :=
  { s with
    messages := s.messages.map fun m => if m.id = oldId then { m with id := newId } else m,
    threads := s.threads.map fun t =>
      if some t.id = s.selectedThreadId then
        { t with messages := t.messages.map fun m =>
            if m.id = oldId then { m with id := newId } else m }
      else t }

/-- The user message built by `submitMessage` (lines 262-271); its content
is a single text block (the code writes no `citations` field, modelled as
an empty citation list). -/
def mkUserMessage (now : Nat) (input : String) : Message :=
  { id := "msg_user_" ++ toString now, role := .user,
    content := [.text input []], model := "claude-opus-4-20250514",
    stop_reason := none, stop_sequence := none,
    usage := { input_tokens := 0, output_tokens := 0 } }

/-- The empty assistant message built by `submitMessage` (lines 278-287). -/
def mkAssistantMessage (now : Nat) : Message :=
  { id := "msg_asst_" ++ toString now, role := .assistant,
    content := [], model := "claude-opus-4-20250514",
    stop_reason := none, stop_sequence := none,
    usage := { input_tokens := 0, output_tokens := 0 } }

/-- One iteration of the `for await` event loop of `submitMessage` (lines
335-443).  The running state is the store, the current value of the local
`assistantMessage.id` (mutated by the `message_start` branch), and the
local `contentBlocks` array.  Events with no branch (`content_block_stop`,
`error`, and falsy-id `message_start` / falsy-stop-reason `message_delta`)
leave everything unchanged. -/
def processEvent (now : Nat) :
    ChatStore × String × List (Option ContentBlock) → StreamEvent →
    ChatStore × String × List (Option ContentBlock)
  | (s, asstId, blocks), .message_start newId =>
      if newId != "" then (renameMessageId s asstId newId, newId, blocks)
      else (s, asstId, blocks)
  | (s, asstId, blocks), .content_block_start index cb =>
      let blocks' := applyBlockStart blocks index cb
      (updateMessage s now asstId (fun m => { m with content := blocks'.filterMap id }),
       asstId, blocks')
  | (s, asstId, blocks), .content_block_delta index d =>
      let blocks' := applyBlockDelta blocks index d
      (updateMessage s now asstId (fun m => { m with content := blocks'.filterMap id }),
       asstId, blocks')
  | (s, asstId, blocks), .message_delta sr u =>
      if jsTruthy sr then
        (updateMessage s now asstId
          (fun m => { m with stop_reason := sr,
                             usage := u.getD { input_tokens := 0, output_tokens := 0 } }),
         asstId, blocks)
      else (s, asstId, blocks)
  | (s, asstId, blocks), .content_block_stop _ => (s, asstId, blocks)
  | (s, asstId, blocks), .message_stop => (s, asstId, blocks)
  | (s, asstId, blocks), .error _ => (s, asstId, blocks)

/-- The same event loop viewed only through the assistant message under
construction and the `contentBlocks` array: the pure assembler underlying
`processEvent` (each store write targets exactly this message). -/
def runAssembler (a : Message) (blocks : List (Option ContentBlock)) :
    List StreamEvent → Message × List (Option ContentBlock)
  | [] => (a, blocks)
  | .message_start newId :: es =>
      if newId != "" then runAssembler { a with id := newId } blocks es
      else runAssembler a blocks es
  | .content_block_start index cb :: es =>
      let blocks' := applyBlockStart blocks index cb
      runAssembler { a with content := blocks'.filterMap id } blocks' es
  | .content_block_delta index d :: es =>
      let blocks' := applyBlockDelta blocks index d
      runAssembler { a with content := blocks'.filterMap id } blocks' es
  | .message_delta sr u :: es =>
      if jsTruthy sr then
        runAssembler { a with stop_reason := sr,
                              usage := u.getD { input_tokens := 0, output_tokens := 0 } } blocks es
      else runAssembler a blocks es
  | .content_block_stop _ :: es => runAssembler a blocks es
  | .message_stop :: es => runAssembler a blocks es
  | .error _ :: es => runAssembler a blocks es

/-- `submitMessage` (src/store/chat.ts lines 238-468) for one submission
whose fetch/stream outcome is `req`: guard on blank input; create a thread
if none is selected; abort any existing controller and install a fresh one;
add the user message and clear the input; add the empty assistant message;
process the stream events; then handle how the `try` block ended
(`AbortError`: remove the assistant message from the message list; other
errors: replace its content with a diagnostic text block and set
`stop_reason` to `error`); finally clear the thread's controller. -/
def submitMessage (s : ChatStore) (now : Nat) (req : RequestResult) : ChatStore :=
  if jsTrim s.messageInput = "" then s
  else
    let p :=
      match s.selectedThreadId with
      | some tid => (s, tid)
      | none => createThread s none now
    let s1 := p.1
    let threadId := p.2
    let s2 := { s1 with threads := s1.threads.map fun t =>
                  if t.id = threadId then { t with hasAbortController := true } else t }
    let userMessage := mkUserMessage now s.messageInput
    let s3 := addMessage s2 now userMessage
    let s4 := { s3 with messageInput := "" }
    let assistantMessage := mkAssistantMessage now
    let s5 := addMessage s4 now assistantMessage
    let r := req.events.foldl (processEvent now) (s5, assistantMessage.id, [])
    let s6 := r.1
    let asstId := r.2.1
    let s7 :=
      match req.termination with
      | .normal => s6
      | .aborted => { s6 with messages := s6.messages.filter fun m => m.id != asstId }
      | .failed msg =>
          updateMessage s6 now asstId fun m =>
            { m with content := [.text ("Error: " ++ msg) []], stop_reason := some "error" }
    { s7 with threads := s7.threads.map fun t =>
        if t.id = threadId then { t with hasAbortController := false } else t }

/-- A store with one selected empty thread and pending input, used by the
concrete witnesses and counterexamples below. -/
def demoThread : Thread :=
  { id := "t1", title := "T", createdAt := 0, updatedAt := 0,
    messages := [], hasAbortController := false }

/-- See `demoThread`. -/
def demoStore : ChatStore :=
  { sidebarOpen := true, activeModal := none, selectedView := .chat,
    threads := [demoThread], selectedThreadId := some "t1",
    messages := [], messageInput := "hi", attachments := [],
    artifacts := [], selectedArtifactId := none }

/-- The cumulative effect of a stream on the message-meta fields
(stop_reason, usage): only a `message_delta` with a truthy stop-reason
writes, and it overwrites both fields at once, usage defaulting to zeros
when absent. -/
def metaFold : Option String × Usage → List StreamEvent → Option String × Usage
  | p, [] => p
  | p, .message_delta sr u :: es =>
      metaFold (if jsTruthy sr then (sr, u.getD { input_tokens := 0, output_tokens := 0 })
                else p) es
  | p, _ :: es => metaFold p es

/-- The block a `content_block_start` branch seeds the array with; `none`
for block types without a branch. -/
def seedBlock : StartBlock → Option ContentBlock
  | .text citations => some (.text "" (citations.getD []))
  | .thinking => some (.thinking "")
  | .tool_use p => some (.tool_use p)
  | .server_tool_use p => some (.server_tool_use p)
  | .web_search_tool_result p => some (.web_search_tool_result p)
  | .other => none

/-- The values taken by the local `assistantMessage.id` variable along a
stream (initial id first; every truthy `message_start` id is appended). -/
def asstIds (a : String) : List StreamEvent → List String
  | [] => [a]
  | .message_start nid :: es => a :: asstIds (if nid != "" then nid else a) es
  | _ :: es => a :: asstIds a es

/-- Every thread whose id is the selected one carries the store's current
message list.  `addMessage` and `updateMessage` establish this
unconditionally; `renameMessageId` preserves it. -/
def ThreadsSynced (s : ChatStore) : Prop :=
  ∀ t ∈ s.threads, some t.id = s.selectedThreadId → t.messages = s.messages

/-- The store state of `submitMessage` just before the event loop, when a
thread `tid` is already selected: abort flag installed, user message
added, input cleared, empty assistant message added. -/
def preStreamStore (s : ChatStore) (now : Nat) (tid : String) : ChatStore :=
  addMessage
    { (addMessage
        { s with threads := s.threads.map fun t =>
            if t.id = tid then { t with hasAbortController := true } else t }
        now (mkUserMessage now s.messageInput)) with messageInput := "" }
    now (mkAssistantMessage now)

/-- The `finally` block of `submitMessage`: clear the thread's abort
controller. -/
def clearAbortFlag (tid : String) (x : ChatStore) : ChatStore :=
  { x with threads := x.threads.map fun t =>
      if t.id = tid then { t with hasAbortController := false } else t }

/-- The catch/finally tail of `submitMessage`, applied to the event-loop
result `r`. -/
def finalizeSubmit (now : Nat) (tid : String) :
    StreamTermination → ChatStore × String × List (Option ContentBlock) → ChatStore
  | .normal, r => clearAbortFlag tid r.1
  | .aborted, r =>
      clearAbortFlag tid { r.1 with messages := r.1.messages.filter fun m => m.id != r.2.1 }
  | .failed msg, r =>
      clearAbortFlag tid (updateMessage r.1 now r.2.1 fun m =>
        { m with content := [ContentBlock.text ("Error: " ++ msg) []],
                 stop_reason := some "error" })

end Chat

namespace SSE

theorem consHead_ne_nil (c : Char) (xs : List Str) : consHead c xs ≠ [] := by
  cases xs <;> simp [consHead]

theorem splitNL_ne_nil (s : Str) : splitNL s ≠ [] := by
  cases s with
  | nil => simp [splitNL]
  | cons c cs =>
      by_cases h : c = '\n' <;> simp [splitNL, h, consHead_ne_nil]

theorem getLastD_irrel (xs : List Str) (h : xs ≠ []) (d₁ d₂ : Str) :
    xs.getLastD d₁ = xs.getLastD d₂ := by
  induction xs with
  | nil => exact absurd rfl h
  | cons x xs ih =>
      cases xs with
      | nil => simp [List.getLastD]
      | cons z zs => simp [List.getLastD]

theorem glue_cons (x : Str) (xs ys : List Str) (hx : xs ≠ []) (hy : ys ≠ []) :
    glue (x :: xs) ys = x :: glue xs ys := by
  cases ys with
  | nil => exact absurd rfl hy
  | cons y ys' =>
      cases xs with
      | nil => exact absurd rfl hx
      | cons z zs =>
          simp [glue, List.getLastD]

theorem consHead_glue (c : Char) (xs ys : List Str) (hx : xs ≠ []) (hy : ys ≠ []) :
    consHead c (glue xs ys) = glue (consHead c xs) ys := by
  cases ys with
  | nil => exact absurd rfl hy
  | cons y ys' =>
      cases xs with
      | nil => exact absurd rfl hx
      | cons x xs' =>
          cases xs' with
          | nil => simp [glue, consHead, List.getLastD]
          | cons z zs => simp [glue, consHead, List.getLastD]

theorem splitNL_append (a b : Str) :
    splitNL (a ++ b) = glue (splitNL a) (splitNL b) := by
  induction a with
  | nil =>
      show splitNL ([] ++ b) = glue (splitNL []) (splitNL b)
      rw [List.nil_append]
      cases hb : splitNL b with
      | nil => exact absurd hb (splitNL_ne_nil b)
      | cons y ys => simp [splitNL, glue, List.getLastD]
  | cons c cs ih =>
      by_cases h : c = '\n'
      · subst h
        show splitNL ('\n' :: (cs ++ b)) = glue (splitNL ('\n' :: cs)) (splitNL b)
        rw [show splitNL ('\n' :: (cs ++ b)) = [] :: splitNL (cs ++ b) from by simp [splitNL]]
        rw [show splitNL ('\n' :: cs) = [] :: splitNL cs from by simp [splitNL]]
        rw [ih, glue_cons [] (splitNL cs) (splitNL b) (splitNL_ne_nil cs) (splitNL_ne_nil b)]
      · show splitNL (c :: (cs ++ b)) = glue (splitNL (c :: cs)) (splitNL b)
        rw [show splitNL (c :: (cs ++ b)) = consHead c (splitNL (cs ++ b)) from by
          simp [splitNL, h]]
        rw [show splitNL (c :: cs) = consHead c (splitNL cs) from by simp [splitNL, h]]
        rw [ih, consHead_glue c (splitNL cs) (splitNL b) (splitNL_ne_nil cs) (splitNL_ne_nil b)]

theorem splitNL_no_newline (s : Str) (h : '\n' ∉ s) : splitNL s = [s] := by
  induction s with
  | nil => simp [splitNL]
  | cons c cs ih =>
      have hc : c ≠ '\n' := fun hc => h (hc ▸ List.mem_cons_self c cs)
      have hcs : '\n' ∉ cs := fun m => h (List.mem_cons_of_mem c m)
      simp [splitNL, hc, ih hcs, consHead]

theorem last_splitNL_no_newline (s : Str) : '\n' ∉ (splitNL s).getLastD [] := by
  induction s with
  | nil => simp [splitNL, List.getLastD]
  | cons c cs ih =>
      by_cases h : c = '\n'
      · have h1 : splitNL (c :: cs) = [] :: splitNL cs := by simp [splitNL, h]
        rw [h1]
        cases hcs : splitNL cs with
        | nil => exact absurd hcs (splitNL_ne_nil cs)
        | cons l ls =>
            rw [show ([] :: l :: ls).getLastD [] = (l :: ls).getLastD [] from by
              simp [List.getLastD]]
            rw [← hcs]; exact ih
      · have h1 : splitNL (c :: cs) = consHead c (splitNL cs) := by simp [splitNL, h]
        rw [h1]
        cases hcs : splitNL cs with
        | nil => exact absurd hcs (splitNL_ne_nil cs)
        | cons l ls =>
            cases ls with
            | nil =>
                simp only [consHead, List.getLastD]
                intro hm
                rcases List.mem_cons.mp hm with h' | h'
                · exact h h'.symm
                · have := ih; rw [hcs] at this; simp [List.getLastD] at this
                  exact this h'
            | cons z zs =>
                simp only [consHead]
                have := ih; rw [hcs] at this
                simpa [List.getLastD] using this

theorem dropLast_append_ne_nil (A B : List Str) (h : B ≠ []) :
    (A ++ B).dropLast = A ++ B.dropLast := by
  induction A with
  | nil => simp
  | cons x xs ih =>
      show (x :: (xs ++ B)).dropLast = x :: (xs ++ B.dropLast)
      cases hx : xs ++ B with
      | nil =>
          rcases List.append_eq_nil.mp hx with ⟨_, hB⟩
          exact absurd hB h
      | cons y ys =>
          rw [List.dropLast_cons₂, ← hx, ih]

/-- The frame decoder processes exactly the newline-terminated lines of the
concatenation of all chunks, regardless of how the stream was chunked; the
final unterminated piece is dropped. -/
theorem feedChunks_join (chunks : List Str) :
    ∀ buf : Str, '\n' ∉ buf →
      feedChunks buf chunks
        = ((splitNL (buf ++ chunks.flatten)).dropLast).filterMap lineData := by
  induction chunks with
  | nil =>
      intro buf hbuf
      simp [feedChunks, splitNL_no_newline buf hbuf]
  | cons c cs ih =>
      intro buf hbuf
      have hlast : '\n' ∉ (splitNL (buf ++ c)).getLastD [] :=
        last_splitNL_no_newline (buf ++ c)
      have step : feedChunks buf (c :: cs)
          = ((splitNL (buf ++ c)).dropLast.filterMap lineData)
            ++ feedChunks ((splitNL (buf ++ c)).getLastD []) cs := rfl
      rw [step, ih _ hlast]
      have hjoin : buf ++ (c :: cs).flatten = (buf ++ c) ++ cs.flatten := by
        simp [List.flatten]
      rw [hjoin, splitNL_append (buf ++ c) cs.flatten]
      cases hys : splitNL cs.flatten with
      | nil => exact absurd hys (splitNL_ne_nil _)
      | cons y ys' =>
          have htail : splitNL ((splitNL (buf ++ c)).getLastD [] ++ cs.flatten)
              = ((splitNL (buf ++ c)).getLastD [] ++ y) :: ys' := by
            rw [splitNL_append _ cs.flatten, splitNL_no_newline _ hlast, hys]
            simp [glue, List.getLastD]
          rw [htail]
          show ((splitNL (buf ++ c)).dropLast.filterMap lineData)
              ++ ((((splitNL (buf ++ c)).getLastD [] ++ y) :: ys').dropLast.filterMap lineData)
            = ((glue (splitNL (buf ++ c)) (y :: ys')).dropLast).filterMap lineData
          rw [show glue (splitNL (buf ++ c)) (y :: ys')
              = (splitNL (buf ++ c)).dropLast ++ ((splitNL (buf ++ c)).getLastD [] ++ y) :: ys'
            from rfl]
          rw [dropLast_append_ne_nil _ _ (by simp)]
          rw [List.filterMap_append]

theorem parseSSE_single (x : Str) :
    parseSSEStream [x] = ((splitNL x).dropLast).filterMap lineData := by
  have h := feedChunks_join [x] [] (by simp)
  rw [show parseSSEStream [x] = feedChunks [] [x] from rfl, h]
  simp

theorem getLastD_append_single (A : List Str) (v : Str) :
    ∀ d : Str, (A ++ [v]).getLastD d = v := by
  induction A with
  | nil => intro d; simp [List.getLastD]
  | cons x xs ih =>
      intro d
      rw [show (x :: xs) ++ [v] = x :: (xs ++ [v]) from rfl]
      rw [List.getLastD_cons, ih x]

/-- A string that is empty or newline-terminated splits into pieces whose
last piece is empty. -/
theorem splitNL_terminated (a : Str) (h : a = [] ∨ a.getLast? = some '\n') :
    (splitNL a).getLastD [] = [] := by
  rcases h with h | h
  · subst h; simp [splitNL, List.getLastD]
  · obtain ⟨a', rfl⟩ := (List.getLast?_eq_some_iff.mp h)
    rw [splitNL_append]
    have hn : splitNL ['\n'] = [[], []] := by simp [splitNL]
    rw [hn]
    show ((splitNL a').dropLast ++ ((splitNL a').getLastD [] ++ []) :: [[]]).getLastD [] = []
    rw [show (splitNL a').dropLast ++ ((splitNL a').getLastD [] ++ []) :: [[]]
        = ((splitNL a').dropLast ++ [(splitNL a').getLastD [] ++ []]) ++ [[]] from by simp]
    exact getLastD_append_single _ _ _

/-- Appending after a newline-terminated prefix splits independently. -/
theorem splitNL_append_terminated (a X : Str) (h : (splitNL a).getLastD [] = []) :
    splitNL (a ++ X) = (splitNL a).dropLast ++ splitNL X := by
  rw [splitNL_append]
  cases hX : splitNL X with
  | nil => exact absurd hX (splitNL_ne_nil X)
  | cons y ys =>
      have h' : (splitNL a).getLast?.getD [] = [] := by
        rw [← List.getLastD_eq_getLast?]; exact h
      simp [glue, h']

/-- C8: for every partition of the input into chunks at arbitrary,
non-aligned boundaries, the frame decoder emits exactly the payloads of
the complete newline-terminated lines of the concatenated input (so its
output is invariant under re-chunking), and the unterminated trailing
piece is discarded, never emitted as a partial frame. -/
theorem C8_frame_decoder_chunk_invariance (chunks : List Str) :
    parseSSEStream chunks = ((splitNL chunks.flatten).dropLast).filterMap lineData
      ∧ parseSSEStream chunks = parseSSEStream [chunks.flatten] := by
  have h1 := feedChunks_join chunks [] (by simp)
  have h2 := parseSSE_single chunks.flatten
  refine ⟨by simpa using h1, ?_⟩
  rw [h2]
  simpa using h1

/-- C2 counterexample: the frame decoder does not terminate at the
sentinel; a well-formed frame following `data: [DONE]` is still emitted,
because the loop merely `continue`s past the sentinel line. -/
theorem C2_counterexample :
    parseSSEStream [chars "data: [DONE]\ndata: 1\n"] = [chars "1"]
      ∧ parseSSEStream [chars "data: [DONE]\ndata: 1\n"] ≠ [] := by
  refine ⟨by decide, by decide⟩

/-- C2 amended: observing the sentinel line terminates nothing; the
sentinel line itself is skipped (it emits no frame) and every frame after
it is emitted exactly as if the sentinel line were absent. -/
theorem C2_amended_sentinel_skipped (a b : Str)
    (h : a = [] ∨ a.getLast? = some '\n') :
    parseSSEStream [a ++ chars "data: [DONE]\n" ++ b] = parseSSEStream [a ++ b] := by
  have ha := splitNL_terminated a h
  have hd : (splitNL (chars "data: [DONE]\n")).getLastD [] = [] := by decide
  have hsd : splitNL (chars "data: [DONE]\n") = [chars "data: [DONE]", []] := by decide
  rw [parseSSE_single, parseSSE_single]
  rw [show a ++ chars "data: [DONE]\n" ++ b = a ++ (chars "data: [DONE]\n" ++ b) from by
    simp]
  rw [splitNL_append_terminated a _ ha, splitNL_append_terminated _ b hd,
      splitNL_append_terminated a b ha, hsd]
  rw [show ([chars "data: [DONE]", []] : List Str).dropLast = [chars "data: [DONE]"] from rfl]
  rw [show (splitNL a).dropLast ++ ([chars "data: [DONE]"] ++ splitNL b)
      = ((splitNL a).dropLast ++ [chars "data: [DONE]"]) ++ splitNL b from by simp]
  rw [dropLast_append_ne_nil _ _ (splitNL_ne_nil b),
      dropLast_append_ne_nil _ _ (splitNL_ne_nil b)]
  rw [List.filterMap_append, List.filterMap_append, List.filterMap_append]
  rw [show List.filterMap lineData [chars "data: [DONE]"] = [] from by decide]
  simp

/-- Witness for C2's amended theorem at a concrete stream. -/
theorem C2_amended_witness :
    ((chars "data: 1\n") = [] ∨ (chars "data: 1\n").getLast? = some '\n')
      ∧ parseSSEStream [chars "data: 1\n" ++ chars "data: [DONE]\n" ++ chars "data: 2\n"]
          = parseSSEStream [chars "data: 1\n" ++ chars "data: 2\n"] :=
  ⟨Or.inr (by decide),
   C2_amended_sentinel_skipped (chars "data: 1\n") (chars "data: 2\n") (Or.inr (by decide))⟩

end SSE

namespace Chat

/-- C10: when the message input is empty or all-whitespace, `submitMessage`
returns before doing anything: the store is unchanged in every field — no
thread is created, no message is added, no request is issued. -/
theorem C10_blank_input_noop (s : ChatStore) (now : Nat) (req : RequestResult)
    (h : jsTrim s.messageInput = "") : submitMessage s now req = s := by
  unfold submitMessage
  rw [if_pos h]

/-- Witness for C10 at a whitespace-only input. -/
theorem C10_witness :
    jsTrim "   " = ""
      ∧ submitMessage { demoStore with messageInput := "   " } 3
          { events := [], termination := .normal }
        = { demoStore with messageInput := "   " } :=
  ⟨by decide, C10_blank_input_noop { demoStore with messageInput := "   " } 3
      { events := [], termination := .normal } (by decide)⟩

/-- C1 counterexample: cancelling mid-stream does not leave the
conversation's history at its pre-submission length.  Starting from an
empty history, after an aborted submission the message list holds the
committed user message (length 1, not 0), and the selected thread's stored
history even keeps the partial assistant message (the abort branch filters
only `messages`, not `threads`). -/
theorem C1_counterexample :
    (submitMessage demoStore 5 { events := [], termination := .aborted }).messages.length
        = demoStore.messages.length + 1
      ∧ (submitMessage demoStore 5 { events := [], termination := .aborted }).messages
          ≠ demoStore.messages
      ∧ ((submitMessage demoStore 5 { events := [], termination := .aborted }).threads.map
            Thread.messages)
          = [[mkUserMessage 5 "hi", mkAssistantMessage 5]] := by
  refine ⟨by decide, by decide, by decide⟩

/-- C3: the upstream `error` stream event has no branch in `submitMessage`
and is silently dropped; the assistant message is committed unchanged —
empty content and null stop_reason — instead of being finalized with a
diagnostic text segment and stop-reason `error`. -/
theorem C3_error_event_ignored :
    (submitMessage demoStore 9 { events := [.error "Overloaded"], termination := .normal }).messages
      = [mkUserMessage 9 "hi", mkAssistantMessage 9] := by decide

/-- C4 counterexample: a fourth outcome exists — a stream that terminates
normally without any stop-reason-bearing `message_delta` commits an
assistant message whose stop_reason is null. -/
theorem C4_counterexample :
    (submitMessage demoStore 3 { events := [], termination := .normal }).messages
        = [mkUserMessage 3 "hi", mkAssistantMessage 3]
      ∧ (mkAssistantMessage 3).stop_reason = none
      ∧ (mkAssistantMessage 3).role = .assistant := by
  refine ⟨by decide, rfl, rfl⟩

/-- C5 counterexample: a segment-start carrying the explicit position `0`
is not applied at position 0.  After opening position 1, a
`content_block_start` with `index = 0` lands at the array length (2)
because JS `event.index || contentBlocks.length` treats `0` as falsy;
position 0 stays absent. -/
theorem C5_counterexample :
    getIdx (applyBlockStart (applyBlockStart [] (some 1) (.text none)) (some 0) .thinking) 0
        = none
      ∧ applyBlockStart (applyBlockStart [] (some 1) (.text none)) (some 0) .thinking
          = [none, some (.text "" []), some (.thinking "")] := by
  refine ⟨by decide, by decide⟩

/-- C6 counterexample: a `message_delta` carrying only a usage value (no
stop-reason) is ignored entirely; the usage is not merged into the
message. -/
theorem C6_counterexample :
    (runAssembler (mkAssistantMessage 0) []
        [.message_delta none (some { input_tokens := 3, output_tokens := 7 })]).1
      = mkAssistantMessage 0 := by decide

theorem runAssembler_meta (events : List StreamEvent) :
    ∀ (a : Message) (blocks : List (Option ContentBlock)),
      ((runAssembler a blocks events).1.stop_reason, (runAssembler a blocks events).1.usage)
        = metaFold (a.stop_reason, a.usage) events := by
  induction events with
  | nil => intro a blocks; rfl
  | cons e es ih =>
      intro a blocks
      cases e with
      | message_start nid =>
          simp only [runAssembler, metaFold]
          by_cases h : nid != ""
          · rw [if_pos h]; exact ih _ _
          · rw [if_neg h]; exact ih _ _
      | content_block_start index cb => exact ih _ _
      | content_block_delta index d => exact ih _ _
      | content_block_stop index => exact ih _ _
      | message_stop => exact ih _ _
      | error msg => exact ih _ _
      | message_delta sr u =>
          simp only [runAssembler, metaFold]
          by_cases h : jsTruthy sr
          · rw [if_pos h, if_pos h]; exact ih _ _
          · rw [if_neg h, if_neg h]; exact ih _ _

/-- C6 amended: a `message_delta` is merged only when its stop-reason is
present and non-empty; then it overwrites both stop_reason and usage (with
zeros when the event carries no usage).  A `message_delta` carrying only a
usage value is ignored entirely.  Among merged deltas the last write wins
for both fields at once. -/
theorem C6_amended_meta_merge (a : Message) (blocks : List (Option ContentBlock))
    (events : List StreamEvent) :
    ((runAssembler a blocks events).1.stop_reason, (runAssembler a blocks events).1.usage)
      = metaFold (a.stop_reason, a.usage) events :=
  runAssembler_meta events a blocks

theorem applyBlockStart_seed (blocks : List (Option ContentBlock)) (index : Option Nat)
    (cb : StartBlock) (b : ContentBlock) (h : seedBlock cb = some b) :
    applyBlockStart blocks index cb = setIdx blocks (jsOrIndex index blocks.length) b := by
  cases cb <;> simp_all [seedBlock, applyBlockStart]

theorem getIdx_setIdx : ∀ (l : List (Option ContentBlock)) (i : Nat) (v : ContentBlock),
    getIdx (setIdx l i v) i = some v
  | [], 0, v => rfl
  | [], n + 1, v => by
      simpa [setIdx, getIdx, List.getD] using getIdx_setIdx [] n v
  | x :: xs, 0, v => rfl
  | x :: xs, n + 1, v => by
      simpa [setIdx, getIdx, List.getD] using getIdx_setIdx xs n v

theorem getIdx_setIdx_ne : ∀ (l : List (Option ContentBlock)) (i j : Nat) (v : ContentBlock),
    i ≠ j → getIdx (setIdx l i v) j = getIdx l j
  | [], 0, 0, v, h => absurd rfl h
  | [], 0, j + 1, v, h => by simp [setIdx, getIdx, List.getD]
  | [], n + 1, 0, v, h => by simp [setIdx, getIdx, List.getD]
  | [], n + 1, j + 1, v, h => by
      simpa [setIdx, getIdx, List.getD] using
        getIdx_setIdx_ne [] n j v (fun hc => h (by rw [hc]))
  | x :: xs, 0, 0, v, h => absurd rfl h
  | x :: xs, 0, j + 1, v, h => by simp [setIdx, getIdx, List.getD]
  | x :: xs, n + 1, 0, v, h => by simp [setIdx, getIdx, List.getD]
  | x :: xs, n + 1, j + 1, v, h => by
      simpa [setIdx, getIdx, List.getD] using
        getIdx_setIdx_ne xs n j v (fun hc => h (by rw [hc]))

/-- C5 amended: an explicit nonzero segment position is honored, and an
omitted segment-start position is assigned the next index after the
highest occupied one (the array length); but an explicit position 0 on a
segment-start is treated as omitted — the block lands at the array length
and position 0 is left untouched whenever the array is nonempty.  A
segment-delta's explicit position is always honored (its JS fallback is 0,
which coincides with the explicit value). -/
theorem C5_amended_position_rules :
    (∀ (blocks : List (Option ContentBlock)) (n : Nat) (cb : StartBlock) (b : ContentBlock),
        seedBlock cb = some b → n ≠ 0 →
        getIdx (applyBlockStart blocks (some n) cb) n = some b)
    ∧ (∀ (blocks : List (Option ContentBlock)) (cb : StartBlock) (b : ContentBlock),
        seedBlock cb = some b →
        getIdx (applyBlockStart blocks none cb) blocks.length = some b)
    ∧ (∀ (blocks : List (Option ContentBlock)) (cb : StartBlock) (b : ContentBlock),
        seedBlock cb = some b → blocks ≠ [] →
        getIdx (applyBlockStart blocks (some 0) cb) blocks.length = some b
          ∧ getIdx (applyBlockStart blocks (some 0) cb) 0 = getIdx blocks 0)
    ∧ (∀ n : Nat, jsOrIndex (some n) 0 = n) := by
  refine ⟨?_, ?_, ?_, ?_⟩
  · intro blocks n cb b h hn
    rw [applyBlockStart_seed blocks (some n) cb b h,
        show jsOrIndex (some n) blocks.length = n from by simp [jsOrIndex, hn]]
    exact getIdx_setIdx blocks n b
  · intro blocks cb b h
    rw [applyBlockStart_seed blocks none cb b h,
        show jsOrIndex none blocks.length = blocks.length from rfl]
    exact getIdx_setIdx blocks blocks.length b
  · intro blocks cb b h hne
    have hz : jsOrIndex (some 0) blocks.length = blocks.length := by simp [jsOrIndex]
    have hlen : blocks.length ≠ 0 := fun hc => hne (List.length_eq_zero.mp hc)
    rw [applyBlockStart_seed blocks (some 0) cb b h, hz]
    exact ⟨getIdx_setIdx blocks blocks.length b,
           getIdx_setIdx_ne blocks blocks.length 0 b hlen⟩
  · intro n
    cases n <;> simp [jsOrIndex]

/-- Witness for C5's amended theorem: with one block open, a start carrying
explicit position 0 lands at index 1. -/
theorem C5_amended_witness :
    seedBlock .thinking = some (.thinking "")
      ∧ ([some (.text "" [])] : List (Option ContentBlock)) ≠ []
      ∧ getIdx (applyBlockStart [some (.text "" [])] (some 0) .thinking) 1
          = some (.thinking "") :=
  ⟨rfl, by decide,
   (C5_amended_position_rules.2.2.1 [some (.text "" [])] .thinking (.thinking "") rfl
      (by decide)).1⟩

theorem runAssembler_append (xs : List StreamEvent) :
    ∀ (ys : List StreamEvent) (a : Message) (blocks : List (Option ContentBlock)),
      runAssembler a blocks (xs ++ ys)
        = runAssembler (runAssembler a blocks xs).1 (runAssembler a blocks xs).2 ys := by
  induction xs with
  | nil => intro ys a blocks; rfl
  | cons e es ih =>
      intro ys a blocks
      cases e with
      | message_start nid =>
          simp only [List.cons_append, runAssembler]
          by_cases h : nid != ""
          · rw [if_pos h, if_pos h]; exact ih ys _ blocks
          · rw [if_neg h, if_neg h]; exact ih ys a blocks
      | content_block_start index cb =>
          simp only [List.cons_append, runAssembler]
          exact ih ys _ _
      | content_block_delta index d =>
          simp only [List.cons_append, runAssembler]
          exact ih ys _ _
      | content_block_stop index =>
          simp only [List.cons_append, runAssembler]
          exact ih ys a blocks
      | message_stop =>
          simp only [List.cons_append, runAssembler]
          exact ih ys a blocks
      | error msg =>
          simp only [List.cons_append, runAssembler]
          exact ih ys a blocks
      | message_delta sr u =>
          simp only [List.cons_append, runAssembler]
          by_cases h : jsTruthy sr
          · rw [if_pos h, if_pos h]; exact ih ys _ blocks
          · rw [if_neg h, if_neg h]; exact ih ys a blocks

/-- A delta addressed to an absent position leaves the block array
unchanged, whatever its kind. -/
theorem applyBlockDelta_absent (blocks : List (Option ContentBlock)) (index : Option Nat)
    (d : DeltaEvent) (h : getIdx blocks (jsOrIndex index 0) = none) :
    applyBlockDelta blocks index d = blocks := by
  cases d with
  | text_delta t => simp [applyBlockDelta, h]
  | citations_delta c => cases c <;> simp [applyBlockDelta, h]
  | thinking_delta t => simp [applyBlockDelta, h]
  | input_json_delta p => rfl
  | other => rfl

/-- Invariant of the event loop: the assistant message's content always
equals the defined blocks of the `contentBlocks` array (both start from
empty, and every block event rewrites the content from the array). -/
theorem runAssembler_content_sync (events : List StreamEvent) :
    ∀ (a : Message) (blocks : List (Option ContentBlock)),
      a.content = blocks.filterMap id →
      (runAssembler a blocks events).1.content
        = (runAssembler a blocks events).2.filterMap id := by
  induction events with
  | nil => intro a blocks h; exact h
  | cons e es ih =>
      intro a blocks h
      cases e with
      | message_start nid =>
          simp only [runAssembler]
          by_cases hn : nid != ""
          · rw [if_pos hn]; exact ih _ _ h
          · rw [if_neg hn]; exact ih _ _ h
      | content_block_start index cb =>
          simp only [runAssembler]
          exact ih _ _ rfl
      | content_block_delta index d =>
          simp only [runAssembler]
          exact ih _ _ rfl
      | content_block_stop index => exact ih _ _ h
      | message_stop => exact ih _ _ h
      | error msg => exact ih _ _ h
      | message_delta sr u =>
          simp only [runAssembler]
          by_cases hs : jsTruthy sr
          · rw [if_pos hs]; exact ih _ _ h
          · rw [if_neg hs]; exact ih _ _ h

/-- C7: a segment-delta addressed to a position that was never opened is
ignored without failing the message, and it does not change any other
position's final content: the run over the sequence with the offending
delta equals the run over the same sequence with it removed (the final
message and the final block array are both identical). -/
theorem C7_absent_delta_isolated (a : Message) (pre post : List StreamEvent)
    (index : Option Nat) (d : DeltaEvent)
    (ha : a.content = [])
    (habsent : getIdx (runAssembler a [] pre).2 (jsOrIndex index 0) = none) :
    runAssembler a [] (pre ++ .content_block_delta index d :: post)
      = runAssembler a [] (pre ++ post) := by
  rw [runAssembler_append pre (.content_block_delta index d :: post) a [],
      runAssembler_append pre post a []]
  have hsync : (runAssembler a [] pre).1.content
      = (runAssembler a [] pre).2.filterMap id :=
    runAssembler_content_sync pre a [] (by simpa using ha)
  simp only [runAssembler]
  rw [applyBlockDelta_absent _ _ d habsent]
  rw [show ({ (runAssembler a [] pre).1 with
        content := (runAssembler a [] pre).2.filterMap id } : Message)
      = (runAssembler a [] pre).1 from by rw [← hsync]]

/-- Witness for C7 at a concrete sequence: a text delta addressed to the
absent position 3 does not change the outcome. -/
theorem C7_witness :
    (mkAssistantMessage 0).content = []
      ∧ getIdx (runAssembler (mkAssistantMessage 0) []
            [.content_block_start (some 1) (.text none)]).2 (jsOrIndex (some 3) 0) = none
      ∧ runAssembler (mkAssistantMessage 0) []
            ([.content_block_start (some 1) (.text none)]
              ++ .content_block_delta (some 3) (.text_delta "x")
                :: [.content_block_delta (some 1) (.text_delta "Hi")])
          = runAssembler (mkAssistantMessage 0) []
              ([.content_block_start (some 1) (.text none)]
                ++ [.content_block_delta (some 1) (.text_delta "Hi")]) :=
  ⟨rfl, by decide,
   C7_absent_delta_isolated (mkAssistantMessage 0)
     [.content_block_start (some 1) (.text none)]
     [.content_block_delta (some 1) (.text_delta "Hi")]
     (some 3) (.text_delta "x") rfl (by decide)⟩

theorem head_mem_asstIds (a : String) (events : List StreamEvent) :
    a ∈ asstIds a events := by
  cases events with
  | nil => simp [asstIds]
  | cons e es => cases e <;> simp [asstIds]

theorem runAssembler_id_mem (events : List StreamEvent) :
    ∀ (a : Message) (blocks : List (Option ContentBlock)),
      (runAssembler a blocks events).1.id ∈ asstIds a.id events := by
  induction events with
  | nil => intro a blocks; simp [runAssembler, asstIds]
  | cons e es ih =>
      intro a blocks
      cases e with
      | message_start nid =>
          simp only [runAssembler, asstIds]
          by_cases h : nid != ""
          · rw [if_pos h, if_pos h]
            exact List.mem_cons_of_mem _ (ih _ _)
          · rw [if_neg h, if_neg h]
            exact List.mem_cons_of_mem _ (ih a blocks)
      | content_block_start index cb =>
          simp only [runAssembler, asstIds]
          exact List.mem_cons_of_mem _ (ih _ _)
      | content_block_delta index d =>
          simp only [runAssembler, asstIds]
          exact List.mem_cons_of_mem _ (ih _ _)
      | content_block_stop index =>
          simp only [runAssembler, asstIds]
          exact List.mem_cons_of_mem _ (ih a blocks)
      | message_stop =>
          simp only [runAssembler, asstIds]
          exact List.mem_cons_of_mem _ (ih a blocks)
      | error msg =>
          simp only [runAssembler, asstIds]
          exact List.mem_cons_of_mem _ (ih a blocks)
      | message_delta sr u =>
          simp only [runAssembler, asstIds]
          by_cases h : jsTruthy sr
          · rw [if_pos h]
            exact List.mem_cons_of_mem _ (ih _ _)
          · rw [if_neg h]
            exact List.mem_cons_of_mem _ (ih a blocks)

theorem map_id_of {α : Type} (l : List α) (f : α → α) (h : ∀ x ∈ l, f x = x) :
    l.map f = l := by
  induction l with
  | nil => rfl
  | cons x xs ih =>
      rw [List.map_cons, h x (List.mem_cons_self x xs),
          ih fun y hy => h y (List.mem_cons_of_mem x hy)]

theorem update_append_last (pre : List Message) (a : Message) (upd : Message → Message)
    (h : ∀ m ∈ pre, m.id ≠ a.id) :
    (pre ++ [a]).map (fun m => if m.id = a.id then upd m else m) = pre ++ [upd a] := by
  rw [List.map_append]
  congr 1
  · exact map_id_of pre _ fun m hm => if_neg (h m hm)
  · simp

theorem synced_addMessage (s : ChatStore) (now : Nat) (m : Message) :
    ThreadsSynced (addMessage s now m) := by
  intro t ht hsel
  simp only [addMessage, List.mem_map] at ht
  obtain ⟨t0, ht0, rfl⟩ := ht
  by_cases hc : some t0.id = s.selectedThreadId
  · simp [addMessage, hc]
  · simp only [addMessage, if_neg hc] at hsel ⊢
    exact absurd hsel hc

theorem synced_updateMessage (s : ChatStore) (now : Nat) (mid : String)
    (upd : Message → Message) : ThreadsSynced (updateMessage s now mid upd) := by
  intro t ht hsel
  simp only [updateMessage, List.mem_map] at ht
  obtain ⟨t0, ht0, rfl⟩ := ht
  by_cases hc : some t0.id = s.selectedThreadId
  · simp [updateMessage, hc]
  · simp only [updateMessage, if_neg hc] at hsel ⊢
    exact absurd hsel hc

theorem synced_renameMessageId (s : ChatStore) (oldId newId : String)
    (hs : ThreadsSynced s) : ThreadsSynced (renameMessageId s oldId newId) := by
  intro t ht hsel
  simp only [renameMessageId, List.mem_map] at ht
  obtain ⟨t0, ht0, rfl⟩ := ht
  by_cases hc : some t0.id = s.selectedThreadId
  · have hmsg := hs t0 ht0 hc
    simp [renameMessageId, hc, hmsg]
  · simp only [renameMessageId, if_neg hc] at hsel ⊢
    exact absurd hsel hc

/-- Simulation of the event loop: under distinctness of the surrounding
message ids from every id the assistant message takes, folding
`processEvent` over the events behaves on the store exactly as the pure
assembler `runAssembler` behaves on the last message, leaving the
preceding messages, the selection and the thread synchronization
untouched. -/
theorem processEvents_sim (now : Nat) (events : List StreamEvent) :
    ∀ (s : ChatStore) (pre : List Message) (a : Message) (blocks : List (Option ContentBlock)),
      s.messages = pre ++ [a] →
      (∀ m ∈ pre, m.id ∉ asstIds a.id events) →
      ThreadsSynced s →
      (events.foldl (processEvent now) (s, a.id, blocks)).2.1
          = (runAssembler a blocks events).1.id
        ∧ (events.foldl (processEvent now) (s, a.id, blocks)).2.2
          = (runAssembler a blocks events).2
        ∧ (events.foldl (processEvent now) (s, a.id, blocks)).1.messages
          = pre ++ [(runAssembler a blocks events).1]
        ∧ ThreadsSynced (events.foldl (processEvent now) (s, a.id, blocks)).1
        ∧ (events.foldl (processEvent now) (s, a.id, blocks)).1.selectedThreadId
          = s.selectedThreadId := by
  induction events with
  | nil =>
      intro s pre a blocks hmsg hfresh hsync
      exact ⟨rfl, rfl, hmsg, hsync, rfl⟩
  | cons e es ih =>
      intro s pre a blocks hmsg hfresh hsync
      have hne_a : ∀ m ∈ pre, m.id ≠ a.id := fun m hm hc =>
        hfresh m hm (hc ▸ head_mem_asstIds a.id (e :: es))
      cases e with
      | message_start nid =>
          by_cases h : nid != ""
          · have hstep : processEvent now (s, a.id, blocks) (.message_start nid)
                = (renameMessageId s a.id nid, nid, blocks) := by
              simp [processEvent, h]
            have hrun : runAssembler a blocks (.message_start nid :: es)
                = runAssembler { a with id := nid } blocks es := by
              simp [runAssembler, h]
            have hmsg' : (renameMessageId s a.id nid).messages
                = pre ++ [{ a with id := nid }] := by
              show s.messages.map _ = _
              rw [hmsg]
              exact update_append_last pre a (fun m => { m with id := nid }) hne_a
            have hfresh' : ∀ m ∈ pre, m.id ∉ asstIds nid es := by
              intro m hm hmem
              apply hfresh m hm
              have hunf : asstIds a.id (.message_start nid :: es)
                  = a.id :: asstIds nid es := by
                simp [asstIds, h]
              rw [hunf]
              exact List.mem_cons_of_mem _ hmem
            have hres := ih (renameMessageId s a.id nid) pre { a with id := nid } blocks
              hmsg' hfresh' (synced_renameMessageId s a.id nid hsync)
            rw [List.foldl_cons, hstep, hrun]
            exact ⟨hres.1, hres.2.1, hres.2.2.1, hres.2.2.2.1, hres.2.2.2.2⟩
          · have hstep : processEvent now (s, a.id, blocks) (.message_start nid)
                = (s, a.id, blocks) := by
              simp [processEvent, h]
            have hrun : runAssembler a blocks (.message_start nid :: es)
                = runAssembler a blocks es := by
              simp [runAssembler, h]
            have hfresh' : ∀ m ∈ pre, m.id ∉ asstIds a.id es := by
              intro m hm hmem
              apply hfresh m hm
              have hunf : asstIds a.id (.message_start nid :: es)
                  = a.id :: asstIds a.id es := by
                simp [asstIds, h]
              rw [hunf]
              exact List.mem_cons_of_mem _ hmem
            rw [List.foldl_cons, hstep, hrun]
            exact ih s pre a blocks hmsg hfresh' hsync
      | content_block_start index cb =>
          have hstep : processEvent now (s, a.id, blocks) (.content_block_start index cb)
              = (updateMessage s now a.id
                  (fun m => { m with content := (applyBlockStart blocks index cb).filterMap id }),
                 a.id, applyBlockStart blocks index cb) := rfl
          have hrun : runAssembler a blocks (.content_block_start index cb :: es)
              = runAssembler { a with content := (applyBlockStart blocks index cb).filterMap id }
                  (applyBlockStart blocks index cb) es := rfl
          have hmsg' : (updateMessage s now a.id
                (fun m => { m with content := (applyBlockStart blocks index cb).filterMap id })).messages
              = pre ++ [{ a with content := (applyBlockStart blocks index cb).filterMap id }] := by
            show s.messages.map _ = _
            rw [hmsg]
            exact update_append_last pre a _ hne_a
          have hfresh' : ∀ m ∈ pre, m.id ∉ asstIds a.id es := by
            intro m hm hmem
            apply hfresh m hm
            have hunf : asstIds a.id (.content_block_start index cb :: es)
                = a.id :: asstIds a.id es := by
              simp [asstIds]
            rw [hunf]
            exact List.mem_cons_of_mem _ hmem
          have hres := ih _ pre { a with content := (applyBlockStart blocks index cb).filterMap id }
            (applyBlockStart blocks index cb) hmsg' hfresh'
            (synced_updateMessage s now a.id _)
          rw [List.foldl_cons, hstep, hrun]
          exact ⟨hres.1, hres.2.1, hres.2.2.1, hres.2.2.2.1, hres.2.2.2.2⟩
      | content_block_delta index d =>
          have hstep : processEvent now (s, a.id, blocks) (.content_block_delta index d)
              = (updateMessage s now a.id
                  (fun m => { m with content := (applyBlockDelta blocks index d).filterMap id }),
                 a.id, applyBlockDelta blocks index d) := rfl
          have hrun : runAssembler a blocks (.content_block_delta index d :: es)
              = runAssembler { a with content := (applyBlockDelta blocks index d).filterMap id }
                  (applyBlockDelta blocks index d) es := rfl
          have hmsg' : (updateMessage s now a.id
                (fun m => { m with content := (applyBlockDelta blocks index d).filterMap id })).messages
              = pre ++ [{ a with content := (applyBlockDelta blocks index d).filterMap id }] := by
            show s.messages.map _ = _
            rw [hmsg]
            exact update_append_last pre a _ hne_a
          have hfresh' : ∀ m ∈ pre, m.id ∉ asstIds a.id es := by
            intro m hm hmem
            apply hfresh m hm
            have hunf : asstIds a.id (.content_block_delta index d :: es)
                = a.id :: asstIds a.id es := by
              simp [asstIds]
            rw [hunf]
            exact List.mem_cons_of_mem _ hmem
          have hres := ih _ pre { a with content := (applyBlockDelta blocks index d).filterMap id }
            (applyBlockDelta blocks index d) hmsg' hfresh'
            (synced_updateMessage s now a.id _)
          rw [List.foldl_cons, hstep, hrun]
          exact ⟨hres.1, hres.2.1, hres.2.2.1, hres.2.2.2.1, hres.2.2.2.2⟩
      | message_delta sr u =>
          have hfresh' : ∀ m ∈ pre, m.id ∉ asstIds a.id es := by
            intro m hm hmem
            apply hfresh m hm
            have hunf : asstIds a.id (.message_delta sr u :: es)
                = a.id :: asstIds a.id es := by
              simp [asstIds]
            rw [hunf]
            exact List.mem_cons_of_mem _ hmem
          by_cases h : jsTruthy sr
          · have hstep : processEvent now (s, a.id, blocks) (.message_delta sr u)
                = (updateMessage s now a.id
                    (fun m => { m with stop_reason := sr, usage := u.getD ⟨0, 0⟩ }),
                   a.id, blocks) := by
              simp [processEvent, h]
            have hrun : runAssembler a blocks (.message_delta sr u :: es)
                = runAssembler { a with stop_reason := sr, usage := u.getD ⟨0, 0⟩ } blocks es := by
              simp [runAssembler, h]
            have hmsg' : (updateMessage s now a.id
                  (fun m => { m with stop_reason := sr, usage := u.getD ⟨0, 0⟩ })).messages
                = pre ++ [{ a with stop_reason := sr, usage := u.getD ⟨0, 0⟩ }] := by
              show s.messages.map _ = _
              rw [hmsg]
              exact update_append_last pre a _ hne_a
            have hres := ih _ pre
              { a with stop_reason := sr, usage := u.getD ⟨0, 0⟩ } blocks
              hmsg' hfresh' (synced_updateMessage s now a.id _)
            rw [List.foldl_cons, hstep, hrun]
            exact ⟨hres.1, hres.2.1, hres.2.2.1, hres.2.2.2.1, hres.2.2.2.2⟩
          · have hstep : processEvent now (s, a.id, blocks) (.message_delta sr u)
                = (s, a.id, blocks) := by
              simp [processEvent, h]
            have hrun : runAssembler a blocks (.message_delta sr u :: es)
                = runAssembler a blocks es := by
              simp [runAssembler, h]
            rw [List.foldl_cons, hstep, hrun]
            exact ih s pre a blocks hmsg hfresh' hsync
      | content_block_stop index =>
          have hfresh' : ∀ m ∈ pre, m.id ∉ asstIds a.id es := by
            intro m hm hmem
            apply hfresh m hm
            have hunf : asstIds a.id (.content_block_stop index :: es)
                = a.id :: asstIds a.id es := by
              simp [asstIds]
            rw [hunf]
            exact List.mem_cons_of_mem _ hmem
          rw [List.foldl_cons]
          exact ih s pre a blocks hmsg hfresh' hsync
      | message_stop =>
          have hfresh' : ∀ m ∈ pre, m.id ∉ asstIds a.id es := by
            intro m hm hmem
            apply hfresh m hm
            have hunf : asstIds a.id (.message_stop :: es)
                = a.id :: asstIds a.id es := by
              simp [asstIds]
            rw [hunf]
            exact List.mem_cons_of_mem _ hmem
          rw [List.foldl_cons]
          exact ih s pre a blocks hmsg hfresh' hsync
      | error msg =>
          have hfresh' : ∀ m ∈ pre, m.id ∉ asstIds a.id es := by
            intro m hm hmem
            apply hfresh m hm
            have hunf : asstIds a.id (.error msg :: es)
                = a.id :: asstIds a.id es := by
              simp [asstIds]
            rw [hunf]
            exact List.mem_cons_of_mem _ hmem
          rw [List.foldl_cons]
          exact ih s pre a blocks hmsg hfresh' hsync

theorem submitMessage_unfold (s : ChatStore) (now : Nat) (events : List StreamEvent)
    (term : StreamTermination) (tid : String)
    (hinput : ¬ jsTrim s.messageInput = "") (hsel : s.selectedThreadId = some tid) :
    submitMessage s now { events := events, termination := term }
      = finalizeSubmit now tid term
          (events.foldl (processEvent now)
            (preStreamStore s now tid, (mkAssistantMessage now).id, [])) := by
  cases term <;>
    · unfold submitMessage
      rw [if_neg hinput]
      conv_lhs => rw [hsel]
      rfl

/-- The simulation results of `processEvents_sim` instantiated at the state
`submitMessage` reaches just before the event loop. -/
theorem submit_sim (s : ChatStore) (now : Nat) (events : List StreamEvent) (tid : String)
    (hsel : s.selectedThreadId = some tid)
    (hfresh : ∀ m ∈ s.messages, m.id ∉ asstIds ("msg_asst_" ++ toString now) events)
    (huser : ("msg_user_" ++ toString now : String)
        ∉ asstIds ("msg_asst_" ++ toString now) events) :
    (events.foldl (processEvent now)
        (preStreamStore s now tid, (mkAssistantMessage now).id, [])).2.1
        = (runAssembler (mkAssistantMessage now) [] events).1.id
      ∧ (events.foldl (processEvent now)
          (preStreamStore s now tid, (mkAssistantMessage now).id, [])).1.messages
          = (s.messages ++ [mkUserMessage now s.messageInput])
              ++ [(runAssembler (mkAssistantMessage now) [] events).1]
      ∧ ThreadsSynced (events.foldl (processEvent now)
          (preStreamStore s now tid, (mkAssistantMessage now).id, [])).1
      ∧ (events.foldl (processEvent now)
          (preStreamStore s now tid, (mkAssistantMessage now).id, [])).1.selectedThreadId
          = some tid
      ∧ ∀ m ∈ s.messages ++ [mkUserMessage now s.messageInput],
          m.id ≠ (runAssembler (mkAssistantMessage now) [] events).1.id := by
  have hfresh5 : ∀ m ∈ s.messages ++ [mkUserMessage now s.messageInput],
      m.id ∉ asstIds (mkAssistantMessage now).id events := by
    intro m hm
    rcases List.mem_append.mp hm with h | h
    · exact hfresh m h
    · rw [List.mem_singleton.mp h]
      exact huser
  have hpre : (preStreamStore s now tid).messages
      = (s.messages ++ [mkUserMessage now s.messageInput]) ++ [mkAssistantMessage now] := rfl
  obtain ⟨i1, i2, i3, i4, i5⟩ := processEvents_sim now events (preStreamStore s now tid)
    (s.messages ++ [mkUserMessage now s.messageInput]) (mkAssistantMessage now) []
    hpre hfresh5 (synced_addMessage _ _ _)
  refine ⟨i1, i3, i4, ?_, ?_⟩
  · rw [i5]; exact hsel
  · intro m hm hc
    exact hfresh5 m hm (hc ▸ runAssembler_id_mem events (mkAssistantMessage now) [])

/-- C1 amended: cancelling mid-stream removes the partial assistant message
from the active message list, but the just-committed user message remains,
so the active list equals the pre-submission history plus the user
message; and the selected thread's stored history additionally keeps the
partial assistant message (the abort branch filters only `messages`, not
`threads`). -/
theorem C1_amended_cancellation (s : ChatStore) (now : Nat) (events : List StreamEvent)
    (tid : String)
    (hinput : ¬ jsTrim s.messageInput = "")
    (hsel : s.selectedThreadId = some tid)
    (hfresh : ∀ m ∈ s.messages, m.id ∉ asstIds ("msg_asst_" ++ toString now) events)
    (huser : ("msg_user_" ++ toString now : String)
        ∉ asstIds ("msg_asst_" ++ toString now) events) :
    (submitMessage s now { events := events, termination := .aborted }).messages
        = s.messages ++ [mkUserMessage now s.messageInput]
      ∧ ∀ t ∈ (submitMessage s now { events := events, termination := .aborted }).threads,
          t.id = tid →
          t.messages = (s.messages ++ [mkUserMessage now s.messageInput])
              ++ [(runAssembler (mkAssistantMessage now) [] events).1] := by
  obtain ⟨i1, imsg, isync, isel, hne⟩ := submit_sim s now events tid hsel hfresh huser
  rw [submitMessage_unfold s now events .aborted tid hinput hsel]
  constructor
  · show ((events.foldl (processEvent now)
        (preStreamStore s now tid, (mkAssistantMessage now).id, [])).1.messages.filter
          fun m => m.id != (events.foldl (processEvent now)
            (preStreamStore s now tid, (mkAssistantMessage now).id, [])).2.1)
      = s.messages ++ [mkUserMessage now s.messageInput]
    rw [i1, imsg, List.filter_append]
    have h1 : ((s.messages ++ [mkUserMessage now s.messageInput]).filter
        fun m => m.id != (runAssembler (mkAssistantMessage now) [] events).1.id)
        = s.messages ++ [mkUserMessage now s.messageInput] :=
      List.filter_eq_self.mpr fun m hm => by simpa using hne m hm
    have h2 : (([(runAssembler (mkAssistantMessage now) [] events).1] : List Message).filter
        fun m => m.id != (runAssembler (mkAssistantMessage now) [] events).1.id) = [] := by
      simp
    rw [h1, h2, List.append_nil]
  · intro t ht htid
    have ht' : t ∈ (events.foldl (processEvent now)
        (preStreamStore s now tid, (mkAssistantMessage now).id, [])).1.threads.map
          fun t0 => if t0.id = tid then { t0 with hasAbortController := false } else t0 := ht
    obtain ⟨t0, ht0, rfl⟩ := List.mem_map.mp ht'
    have hid0 : (if t0.id = tid then { t0 with hasAbortController := false } else t0).id
        = t0.id := by
      by_cases hc : t0.id = tid <;> simp [hc]
    have hm0 : (if t0.id = tid then { t0 with hasAbortController := false } else t0).messages
        = t0.messages := by
      by_cases hc : t0.id = tid <;> simp [hc]
    have ht0id : t0.id = tid := by rw [← hid0]; exact htid
    rw [hm0]
    have hmemb : t0.messages = (events.foldl (processEvent now)
        (preStreamStore s now tid, (mkAssistantMessage now).id, [])).1.messages :=
      isync t0 ht0 (by rw [isel, ht0id])
    rw [hmemb, imsg]

/-- Witness for C1's amended theorem at a concrete cancelled submission. -/
theorem C1_amended_witness :
    (¬ jsTrim demoStore.messageInput = "")
      ∧ (submitMessage demoStore 7
            { events := [.message_start "m1"], termination := .aborted }).messages
          = demoStore.messages ++ [mkUserMessage 7 demoStore.messageInput] :=
  ⟨by decide,
   (C1_amended_cancellation demoStore 7 [.message_start "m1"] "t1" (by decide) rfl
      (by decide) (by decide)).1⟩

/-- C4 amended: every submission has exactly one of four outcomes — on
cancellation no assistant message is committed (only the user message); on
failure an assistant message with a single diagnostic text segment and
stop-reason `error`; on normal stream end the assembled assistant message,
whose stop-reason is the last one carried by a truthy `message_delta` — or
null when no such event arrived, the fourth outcome the original claim
excluded. -/
theorem C4_amended_four_outcomes (s : ChatStore) (now : Nat) (events : List StreamEvent)
    (tid : String)
    (hinput : ¬ jsTrim s.messageInput = "")
    (hsel : s.selectedThreadId = some tid)
    (hfresh : ∀ m ∈ s.messages, m.id ∉ asstIds ("msg_asst_" ++ toString now) events)
    (huser : ("msg_user_" ++ toString now : String)
        ∉ asstIds ("msg_asst_" ++ toString now) events) :
    ((submitMessage s now { events := events, termination := .aborted }).messages
        = s.messages ++ [mkUserMessage now s.messageInput])
      ∧ (∀ msg, (submitMessage s now { events := events, termination := .failed msg }).messages
          = (s.messages ++ [mkUserMessage now s.messageInput])
              ++ [{ (runAssembler (mkAssistantMessage now) [] events).1 with
                    content := [ContentBlock.text ("Error: " ++ msg) []],
                    stop_reason := some "error" }])
      ∧ ((submitMessage s now { events := events, termination := .normal }).messages
          = (s.messages ++ [mkUserMessage now s.messageInput])
              ++ [(runAssembler (mkAssistantMessage now) [] events).1])
      ∧ ((runAssembler (mkAssistantMessage now) [] events).1.stop_reason
          = (metaFold (none, { input_tokens := 0, output_tokens := 0 }) events).1) := by
  obtain ⟨i1, imsg, isync, isel, hne⟩ := submit_sim s now events tid hsel hfresh huser
  refine ⟨?_, ?_, ?_, ?_⟩
  · rw [submitMessage_unfold s now events .aborted tid hinput hsel]
    show ((events.foldl (processEvent now)
        (preStreamStore s now tid, (mkAssistantMessage now).id, [])).1.messages.filter
          fun m => m.id != (events.foldl (processEvent now)
            (preStreamStore s now tid, (mkAssistantMessage now).id, [])).2.1)
      = s.messages ++ [mkUserMessage now s.messageInput]
    rw [i1, imsg, List.filter_append]
    have h1 : ((s.messages ++ [mkUserMessage now s.messageInput]).filter
        fun m => m.id != (runAssembler (mkAssistantMessage now) [] events).1.id)
        = s.messages ++ [mkUserMessage now s.messageInput] :=
      List.filter_eq_self.mpr fun m hm => by simpa using hne m hm
    have h2 : (([(runAssembler (mkAssistantMessage now) [] events).1] : List Message).filter
        fun m => m.id != (runAssembler (mkAssistantMessage now) [] events).1.id) = [] := by
      simp
    rw [h1, h2, List.append_nil]
  · intro msg
    rw [submitMessage_unfold s now events (.failed msg) tid hinput hsel]
    show ((events.foldl (processEvent now)
        (preStreamStore s now tid, (mkAssistantMessage now).id, [])).1.messages.map
          fun m => if m.id = (events.foldl (processEvent now)
              (preStreamStore s now tid, (mkAssistantMessage now).id, [])).2.1 then
              { m with content := [ContentBlock.text ("Error: " ++ msg) []],
                       stop_reason := some "error" }
            else m)
      = (s.messages ++ [mkUserMessage now s.messageInput])
          ++ [{ (runAssembler (mkAssistantMessage now) [] events).1 with
                content := [ContentBlock.text ("Error: " ++ msg) []],
                stop_reason := some "error" }]
    rw [i1, imsg]
    exact update_append_last _ _ _ hne
  · rw [submitMessage_unfold s now events .normal tid hinput hsel]
    show (events.foldl (processEvent now)
        (preStreamStore s now tid, (mkAssistantMessage now).id, [])).1.messages
      = (s.messages ++ [mkUserMessage now s.messageInput])
          ++ [(runAssembler (mkAssistantMessage now) [] events).1]
    exact imsg
  · exact congrArg Prod.fst (runAssembler_meta events (mkAssistantMessage now) [])

/-- Witness for C4's amended theorem at concrete failed and normal
submissions. -/
theorem C4_amended_witness :
    (¬ jsTrim demoStore.messageInput = "")
      ∧ (submitMessage demoStore 11 { events := [], termination := .failed "boom" }).messages
          = (demoStore.messages ++ [mkUserMessage 11 demoStore.messageInput])
              ++ [{ (runAssembler (mkAssistantMessage 11) [] []).1 with
                    content := [ContentBlock.text ("Error: " ++ "boom") []],
                    stop_reason := some "error" }]
      ∧ (submitMessage demoStore 11 { events := [], termination := .normal }).messages
          = (demoStore.messages ++ [mkUserMessage 11 demoStore.messageInput])
              ++ [(runAssembler (mkAssistantMessage 11) [] []).1] :=
  ⟨by decide,
   (C4_amended_four_outcomes demoStore 11 [] "t1" (by decide) rfl
      (by decide) (by decide)).2.1 "boom",
   (C4_amended_four_outcomes demoStore 11 [] "t1" (by decide) rfl
      (by decide) (by decide)).2.2.1⟩

end Chat
